import Mathlib

/-!
Shallow embedding of the risc0 fork of RustCrypto crypto-bigint's modular
arithmetic core: the `Residue` layer (src/uint/modular/constant_mod.rs), the
Montgomery conversion layer (src/uint/modular/repr.rs), the modular inverse
layer (src/uint/modular/inv.rs) and the RISC Zero accelerator shim
(src/risc0.rs).

Machine integers are modelled as `Nat` with explicit bounds; a `Uint<LIMBS>`
value is a natural number below `2 ^ (32 * LIMBS)` (the zkvm target has
32-bit words).  The compile-time `cfg(target_os = "zkvm")` selection is
modelled by a `Bool` parameter `zkvm`; the accelerated branch of each
function is guarded, as in the source, by the limb count being exactly
`BIGINT_WIDTH_WORDS = 8`.

Collaborators of the core whose source files are not part of the audited
tree (the Montgomery reduction kernel, `mul_wide`, `inv_odd_mod`,
`mul_montgomery_form`, `div_by_2`, the byte-encoding layer, and the
accelerator system call itself) are modelled from the specification; each
such definition carries a doc comment starting `Modelled from the spec`.
-/

namespace CryptoBigint

/-- Bits per machine word on the RISC Zero guest target (`u32`). -/
def wordBits : Nat := 32

/-- src/risc0.rs: RISC Zero supports BigInt operations with a width of
256 bits as 8x32-bit words. -/
def BIGINT_WIDTH_WORDS : Nat := 8

/-- Number of value bits of a `Uint` with the given limb count. -/
def kBits (limbs : Nat) : Nat := wordBits * limbs

/-- A modular inverse of `a` modulo `m` as a natural number below `m`:
the first `b < m` with `a * b ≡ 1 (mod m)`, or `0` when none exists.
Used to model the external extended-Euclidean routine `inv_odd_mod` and to
state the §4.2 output contract of the Montgomery reduction kernel. -/
def modInv (a m : Nat) : Nat :=
  ((List.range m).find? (fun b => a * b % m == 1 % m)).getD 0

/-- Modelled from the spec (§4.1): the external wide multiply
`mul_wide(a, b) -> (lo, hi)`, a full-precision product split into two
same-width halves, `lo + hi * 2 ^ k = a * b`. -/
def mul_wide (limbs a b : Nat) : Nat × Nat :=
  (a * b % 2 ^ kBits limbs, a * b / 2 ^ kBits limbs)

/-- Modelled from the spec (§4.2): the Montgomery reduction kernel
(source file src/uint/modular/reduction.rs is not part of the audited tree),
by its input/output contract: given a double-width product `(lo, hi)`,
return the unique value in `[0, modulus)` congruent to
`(lo + hi * 2^k) * 2^(-k) (mod modulus)`.  The `mod_neg_inv` parameter of
the source only drives the internal REDC loop and does not appear in the
contract, so it is omitted here. -/
def montgomery_reduction (limbs : Nat) (product : Nat × Nat) (modulus : Nat) : Nat :=
  (product.1 + product.2 * 2 ^ kBits limbs) * modInv (2 ^ kBits limbs) modulus % modulus

/-- Abort causes of the shim functions in src/risc0.rs: the width
assertion at entry, and the canonical-range assertion after the system
call. -/
inductive PanicKind where
  | widthAssert
  | canonicalAssert
deriving DecidableEq

/-- Modelled from the spec (§6): the specified behaviour of the
accelerator system call `sys_bigint` with the `OP_MULTIPLY` opcode —
writes `x * y mod modulus` into the 256-bit output buffer, or, for an
all-zero modulus, the unreduced double-width product (truncated to the
256-bit buffer). -/
def sys_bigint (x y modulus : Nat) : Nat :=
  if modulus = 0 then x * y % 2 ^ 256 else x * y % modulus

/-- src/risc0.rs `modmul_u256`: asserts `LIMBS == BIGINT_WIDTH_WORDS`,
invokes the system call, then asserts that the returned result is strictly
below the modulus.  The system call is an untrusted external party, so it
is a parameter `sys`; a failed `assert!` is the corresponding
`PanicKind`. -/
def modmul_u256 (sys : Nat → Nat → Nat → Nat) (limbs a b modulus : Nat) :
    Except PanicKind Nat :=
  if limbs = BIGINT_WIDTH_WORDS then
    let result := sys a b modulus
    if result < modulus then Except.ok result
    else Except.error PanicKind.canonicalAssert
  else Except.error PanicKind.widthAssert

/-- src/risc0.rs `mul_wide_u128`: asserts `LIMBS == BIGINT_WIDTH_WORDS / 2`,
zero-pads both operands to 8 words (padding leaves the numeric value
unchanged, so it is implicit here), invokes the system call with an
all-zero modulus, and splits the 8-word result at word `LIMBS` into
`(lo, hi)`.  No post-condition check is applied. -/
def mul_wide_u128 (sys : Nat → Nat → Nat → Nat) (limbs a b : Nat) :
    Except PanicKind (Nat × Nat) :=
  if limbs = BIGINT_WIDTH_WORDS / 2 then
    let result := sys a b 0
    Except.ok (result % 2 ^ kBits limbs, result / 2 ^ kBits limbs)
  else Except.error PanicKind.widthAssert

/-- The accelerated modular multiply as consumed by the residue layer
(`risc0::modmul_uint_256` in src/uint/modular/constant_mod.rs): the shim
run against the specified system-call behaviour.  For a positive modulus
the specified call always satisfies the canonical-range check, so this is
total (see `modmul_u256_sys_bigint`). -/
def modmul_uint_256 (a b modulus : Nat) : Nat :=
  sys_bigint a b modulus

/-- The Montgomery parameters for one odd modulus
(trait `ResidueParams`, src/uint/modular/constant_mod.rs).  The spec (§3)
fixes the derived constants as functions of `limbs` and `modulus`, which
the engine trusts; they are definitions below rather than fields. -/
structure ResidueParams where
  limbs : Nat
  modulus : Nat

/-- `R = 2^(LIMBS·WordBits) mod MODULUS`. -/
def ResidueParams.R (P : ResidueParams) : Nat :=
  2 ^ kBits P.limbs % P.modulus

/-- `R2 = R² mod MODULUS`. -/
def ResidueParams.R2 (P : ResidueParams) : Nat :=
  P.R * P.R % P.modulus

/-- `R3 = R³ mod MODULUS`. -/
def ResidueParams.R3 (P : ResidueParams) : Nat :=
  P.R * P.R * P.R % P.modulus

/-- src/uint/modular/repr.rs `into_montgomery_form`: on the zkvm
accelerated width, returns `a` unchanged (`a.clone()`); otherwise reduces
`mul_wide(a, r2)` through the kernel. -/
def into_montgomery_form (zkvm : Bool) (limbs a r2 modulus : Nat) : Nat :=
  if zkvm = true ∧ limbs = BIGINT_WIDTH_WORDS then a
  else montgomery_reduction limbs (mul_wide limbs a r2) modulus

/-- src/uint/modular/repr.rs `from_montgomery_form`: on the zkvm
accelerated width, returns `a` unchanged; otherwise reduces `(a, 0)`
through the kernel. -/
def from_montgomery_form (zkvm : Bool) (limbs a modulus : Nat) : Nat :=
  if zkvm = true ∧ limbs = BIGINT_WIDTH_WORDS then a
  else montgomery_reduction limbs (a, 0) modulus

/-- Modelled from the spec (§4.4): the external extended-Euclidean routine
`inv_odd_mod`, returning `(candidate, found)`: `found` is true iff
`gcd(x, modulus) = 1`, and the candidate is the standard-form inverse when
`found` holds (a well-defined value otherwise). -/
def inv_odd_mod (x modulus : Nat) : Nat × Bool :=
  (modInv x modulus, decide (Nat.gcd x modulus = 1))

/-- Modelled from the spec (§4.2): `mul_montgomery_form` multiplies two
internal-representation values (source file src/uint/modular/mul.rs is not
part of the audited tree): on the accelerated width it is the hardware
modmul, otherwise the kernel applied to the wide product. -/
def mul_montgomery_form (zkvm : Bool) (limbs a b modulus : Nat) : Nat :=
  if zkvm = true ∧ limbs = BIGINT_WIDTH_WORDS then modmul_uint_256 a b modulus
  else montgomery_reduction limbs (mul_wide limbs a b) modulus

/-- src/uint/modular/inv.rs `inv_montgomery_form`: computes the
standard-form inverse candidate via `inv_odd_mod`; on the accelerated
width returns it as is, otherwise re-projects it into Montgomery form by a
Montgomery multiplication with `r3`.  The unused `mod_neg_inv` and `r_inv`
parameters of the source are omitted. -/
def inv_montgomery_form (zkvm : Bool) (limbs x modulus r3 : Nat) : Nat × Bool :=
  let p := inv_odd_mod x modulus
  if zkvm = true ∧ limbs = BIGINT_WIDTH_WORDS then p
  else (mul_montgomery_form zkvm limbs p.1 r3 modulus, p.2)

/-- Modelled from the spec (§4.6): the free function `div_by_2` (source
file src/uint/modular/div_by_2.rs is not part of the audited tree): if `a`
is even return `a / 2`, if odd return `(a + modulus) / 2` (an exact
division since the modulus is odd). -/
def div_by_2 (a modulus : Nat) : Nat :=
  if a % 2 = 0 then a / 2 else (a + modulus) / 2

namespace Residue

/-- `Residue::ZERO` (src/uint/modular/constant_mod.rs): stored value 0 on
either backend. -/
def zero : Nat := 0

/-- `Residue::ONE`: on the zkvm accelerated width the stored value is
`Uint::ONE`, otherwise `MOD::R`. -/
def one (zkvm : Bool) (P : ResidueParams) : Nat :=
  if zkvm = true ∧ P.limbs = BIGINT_WIDTH_WORDS then 1 else P.R

/-- `Residue::new` (src/uint/modular/constant_mod.rs): on the zkvm
accelerated width, keep standard form and force reduction by a hardware
modmul with one; otherwise reduce `mul_wide(integer, R2)` through the
kernel. -/
def new (zkvm : Bool) (P : ResidueParams) (integer : Nat) : Nat :=
  if zkvm = true ∧ P.limbs = BIGINT_WIDTH_WORDS then
    modmul_uint_256 integer 1 P.modulus
  else
    montgomery_reduction P.limbs (mul_wide P.limbs integer P.R2) P.modulus

/-- `Residue::retrieve`: on the zkvm accelerated width the stored value is
already standard form; otherwise reduce `(x, 0)` through the kernel. -/
def retrieve (zkvm : Bool) (P : ResidueParams) (x : Nat) : Nat :=
  if zkvm = true ∧ P.limbs = BIGINT_WIDTH_WORDS then x
  else montgomery_reduction P.limbs (x, 0) P.modulus

/-- `Residue::div_by_2` (src/uint/modular/constant_mod.rs): applies the
free `div_by_2` to the stored value, on either backend. -/
def div_by_2 (P : ResidueParams) (x : Nat) : Nat :=
  CryptoBigint.div_by_2 x P.modulus

/-- Modelled from the spec (§4.6): addition of residues (source module
const_add is not part of the audited tree); modular addition of the stored
values, identical on both backends. -/
def add (P : ResidueParams) (x y : Nat) : Nat :=
  (x + y) % P.modulus

/-- Modelled from the spec (§4.6): negation of a residue (source module
const_neg is not part of the audited tree). -/
def neg (P : ResidueParams) (x : Nat) : Nat :=
  (P.modulus - x) % P.modulus

/-- Modelled from the spec (§4.6): subtraction of residues (source module
const_sub is not part of the audited tree). -/
def sub (P : ResidueParams) (x y : Nat) : Nat :=
  (x + (P.modulus - y)) % P.modulus

/-- `Residue` multiplication (source module const_mul is not part of the
audited tree): `mul_montgomery_form` on the stored values. -/
def mul (zkvm : Bool) (P : ResidueParams) (x y : Nat) : Nat :=
  mul_montgomery_form zkvm P.limbs x y P.modulus

/-- `Residue` inverse: `inv_montgomery_form` on the stored value with the
parameter set's `R3`. -/
def inv (zkvm : Bool) (P : ResidueParams) (x : Nat) : Nat × Bool :=
  inv_montgomery_form zkvm P.limbs x P.modulus P.R3

/-- `Residue::serialize` (src/uint/modular/constant_mod.rs): on the zkvm
accelerated width, convert the stored standard-form value to Montgomery
form by a hardware modmul with `R`; otherwise emit the stored value.  The
external fixed-width byte encoding is injective, so the wire content is
modelled as the emitted `Uint` value. -/
def serialize (zkvm : Bool) (P : ResidueParams) (x : Nat) : Nat :=
  if zkvm = true ∧ P.limbs = BIGINT_WIDTH_WORDS then
    modmul_uint_256 x P.R P.modulus
  else x

/-- `Residue::deserialize` (src/uint/modular/constant_mod.rs): reject any
decoded value not strictly below the modulus; otherwise, on the zkvm
accelerated width, convert the Montgomery-form wire value to standard form
by a hardware modmul with `r_inv = R.inv_odd_mod(MODULUS).0`. -/
def deserialize (zkvm : Bool) (P : ResidueParams) (v : Nat) : Except String Nat :=
  if v < P.modulus then
    if zkvm = true ∧ P.limbs = BIGINT_WIDTH_WORDS then
      Except.ok (modmul_uint_256 v (inv_odd_mod P.R P.modulus).1 P.modulus)
    else Except.ok v
  else Except.error "montgomery form must be reduced"

end Residue

/-- Residues reachable through the public constructors and operations of
`Residue`: `ZERO`, `ONE`, `new`, successful `deserialize`, and the
arithmetic operations (§4.6). -/
inductive Reachable (zkvm : Bool) (P : ResidueParams) : Nat → Prop where
  | zero : Reachable zkvm P Residue.zero
  | one : Reachable zkvm P (Residue.one zkvm P)
  | ofNew (a : Nat) : Reachable zkvm P (Residue.new zkvm P a)
  | ofDeserialize (v x : Nat) (h : Residue.deserialize zkvm P v = Except.ok x) :
      Reachable zkvm P x
  | ofAdd {x y : Nat} : Reachable zkvm P x → Reachable zkvm P y →
      Reachable zkvm P (Residue.add P x y)
  | ofSub {x y : Nat} : Reachable zkvm P x → Reachable zkvm P y →
      Reachable zkvm P (Residue.sub P x y)
  | ofNeg {x : Nat} : Reachable zkvm P x → Reachable zkvm P (Residue.neg P x)
  | ofMul {x y : Nat} : Reachable zkvm P x → Reachable zkvm P y →
      Reachable zkvm P (Residue.mul zkvm P x y)
  | ofDivBy2 {x : Nat} : Reachable zkvm P x → Reachable zkvm P (Residue.div_by_2 P x)
  | ofInv {x : Nat} : Reachable zkvm P x → Reachable zkvm P (Residue.inv zkvm P x).1

/-- Observable agreement of an accelerated-backend stored value `xa` and a
software-backend stored value `xs` over the same parameter set: their
serialized wire values and their retrieved integers coincide. -/
def backendsAgree (P : ResidueParams) (xa xs : Nat) : Prop :=
  Residue.serialize true P xa = Residue.serialize false P xs ∧
  Residue.retrieve true P xa = Residue.retrieve false P xs

end CryptoBigint

namespace CryptoBigint

lemma modInv_lt (a m : Nat) (hm : 0 < m) : modInv a m < m := by
  unfold modInv
  cases hfind : (List.range m).find? (fun b => a * b % m == 1 % m) with
  | none => simpa using hm
  | some r =>
    have hr := List.mem_of_find?_eq_some hfind
    simpa using List.mem_range.mp hr

lemma modInv_spec (a m : Nat) (hm : 0 < m) (h : Nat.Coprime a m) :
    a * modInv a m % m = 1 % m := by
  haveI : NeZero m := ⟨hm.ne'⟩
  have hex : ∃ c, c ∈ List.range m ∧ a * c % m = 1 % m := by
    refine ⟨((a : ZMod m)⁻¹).val, List.mem_range.mpr (ZMod.val_lt _), ?_⟩
    have hcast : ((a * ((a : ZMod m)⁻¹).val : Nat) : ZMod m) = ((1 : Nat) : ZMod m) := by
      push_cast
      rw [ZMod.natCast_val, ZMod.cast_id]
      exact ZMod.coe_mul_inv_eq_one a h
    exact (ZMod.natCast_eq_natCast_iff' _ _ _).mp hcast
  obtain ⟨c, hcmem, hc⟩ := hex
  unfold modInv
  cases hfind : (List.range m).find? (fun b => a * b % m == 1 % m) with
  | none =>
    exact absurd hc (by simpa using List.find?_eq_none.mp hfind c hcmem)
  | some r =>
    have hp := List.find?_some hfind
    simpa using hp

lemma coprime_two_pow (k m : Nat) (hodd : Odd m) : Nat.Coprime (2 ^ k) m :=
  Nat.Coprime.pow_left k (Nat.coprime_two_left.mpr hodd)

lemma natCast_mod_self (x m : Nat) : ((x % m : Nat) : ZMod m) = (x : ZMod m) := by
  conv_rhs => rw [← Nat.mod_add_div x m]
  push_cast [ZMod.natCast_self]
  ring

lemma eq_of_lt_of_cast_eq {m x y : Nat} (hx : x < m) (hy : y < m)
    (h : (x : ZMod m) = (y : ZMod m)) : x = y := by
  haveI : NeZero m := ⟨by omega⟩
  rw [← ZMod.val_cast_of_lt hx, ← ZMod.val_cast_of_lt hy, h]

lemma two_pow_mul_modInv (k m : Nat) (hodd : Odd m) :
    ((2 ^ k : Nat) : ZMod m) * ((modInv (2 ^ k) m : Nat) : ZMod m) = 1 := by
  have hm : 0 < m := hodd.pos
  have h := modInv_spec (2 ^ k) m hm (coprime_two_pow k m hodd)
  have h2 : ((2 ^ k * modInv (2 ^ k) m % m : Nat) : ZMod m) = ((1 % m : Nat) : ZMod m) := by
    rw [h]
  rw [natCast_mod_self, natCast_mod_self] at h2
  push_cast at h2 ⊢
  exact h2

lemma montgomery_reduction_mul_wide (limbs a b m : Nat) :
    montgomery_reduction limbs (mul_wide limbs a b) m
      = a * b * modInv (2 ^ kBits limbs) m % m := by
  unfold montgomery_reduction mul_wide
  rw [Nat.mod_add_div' (a * b) (2 ^ kBits limbs)]

lemma new_soft_eq (zkvm : Bool) (P : ResidueParams)
    (h : ¬(zkvm = true ∧ P.limbs = BIGINT_WIDTH_WORDS)) (a : Nat) :
    Residue.new zkvm P a
      = a * P.R2 * modInv (2 ^ kBits P.limbs) P.modulus % P.modulus := by
  rw [Residue.new, if_neg h]
  exact montgomery_reduction_mul_wide P.limbs a P.R2 P.modulus

lemma retrieve_soft_eq (zkvm : Bool) (P : ResidueParams)
    (h : ¬(zkvm = true ∧ P.limbs = BIGINT_WIDTH_WORDS)) (x : Nat) :
    Residue.retrieve zkvm P x
      = x * modInv (2 ^ kBits P.limbs) P.modulus % P.modulus := by
  rw [Residue.retrieve, if_neg h]
  simp [montgomery_reduction]

lemma new_soft_cast (zkvm : Bool) (P : ResidueParams) (hodd : Odd P.modulus)
    (h : ¬(zkvm = true ∧ P.limbs = BIGINT_WIDTH_WORDS)) (a : Nat) :
    ((Residue.new zkvm P a : Nat) : ZMod P.modulus)
      = (a : ZMod P.modulus) * (2 : ZMod P.modulus) ^ kBits P.limbs := by
  have hru := two_pow_mul_modInv (kBits P.limbs) P.modulus hodd
  push_cast at hru
  rw [new_soft_eq zkvm P h, natCast_mod_self]
  push_cast [ResidueParams.R2, ResidueParams.R, natCast_mod_self]
  linear_combination ((a : ZMod P.modulus) * (2 : ZMod P.modulus) ^ kBits P.limbs) * hru

lemma retrieve_soft_cast (zkvm : Bool) (P : ResidueParams)
    (h : ¬(zkvm = true ∧ P.limbs = BIGINT_WIDTH_WORDS)) (x : Nat) :
    ((Residue.retrieve zkvm P x : Nat) : ZMod P.modulus)
      = (x : ZMod P.modulus) * ((modInv (2 ^ kBits P.limbs) P.modulus : Nat) : ZMod P.modulus) := by
  rw [retrieve_soft_eq zkvm P h, natCast_mod_self]
  push_cast
  ring

lemma new_soft_lt (zkvm : Bool) (P : ResidueParams) (hm : 0 < P.modulus)
    (h : ¬(zkvm = true ∧ P.limbs = BIGINT_WIDTH_WORDS)) (a : Nat) :
    Residue.new zkvm P a < P.modulus := by
  rw [new_soft_eq zkvm P h]
  exact Nat.mod_lt _ hm

lemma retrieve_soft_lt (zkvm : Bool) (P : ResidueParams) (hm : 0 < P.modulus)
    (h : ¬(zkvm = true ∧ P.limbs = BIGINT_WIDTH_WORDS)) (x : Nat) :
    Residue.retrieve zkvm P x < P.modulus := by
  rw [retrieve_soft_eq zkvm P h]
  exact Nat.mod_lt _ hm

lemma modmul_uint_256_eq (a b m : Nat) (hm : 0 < m) :
    modmul_uint_256 a b m = a * b % m := by
  simp [modmul_uint_256, sys_bigint, hm.ne']

lemma modmul_u256_sys_bigint (a b m : Nat) (hm : 0 < m) :
    modmul_u256 sys_bigint BIGINT_WIDTH_WORDS a b m
      = Except.ok (modmul_uint_256 a b m) := by
  simp [modmul_u256, modmul_uint_256, sys_bigint, hm.ne', Nat.mod_lt _ hm]

lemma new_accel_eq (P : ResidueParams) (h8 : P.limbs = BIGINT_WIDTH_WORDS)
    (hm : 0 < P.modulus) (a : Nat) :
    Residue.new true P a = a % P.modulus := by
  simp [Residue.new, h8, modmul_uint_256_eq _ _ _ hm]

lemma retrieve_accel_eq (P : ResidueParams) (h8 : P.limbs = BIGINT_WIDTH_WORDS)
    (x : Nat) : Residue.retrieve true P x = x := by
  simp [Residue.retrieve, h8]

lemma serialize_accel_eq (P : ResidueParams) (h8 : P.limbs = BIGINT_WIDTH_WORDS)
    (hm : 0 < P.modulus) (x : Nat) :
    Residue.serialize true P x = x * P.R % P.modulus := by
  simp [Residue.serialize, h8, modmul_uint_256_eq _ _ _ hm]

lemma serialize_soft_eq (zkvm : Bool) (P : ResidueParams)
    (h : ¬(zkvm = true ∧ P.limbs = BIGINT_WIDTH_WORDS)) (x : Nat) :
    Residue.serialize zkvm P x = x := by
  rw [Residue.serialize, if_neg h]

end CryptoBigint

namespace CryptoBigint

lemma mul_modInv_cast (a m : Nat) (hm : 0 < m) (h : Nat.Coprime a m) :
    ((a : Nat) : ZMod m) * ((modInv a m : Nat) : ZMod m) = 1 := by
  have hs := modInv_spec a m hm h
  have h2 : ((a * modInv a m % m : Nat) : ZMod m) = ((1 % m : Nat) : ZMod m) := by
    rw [hs]
  rw [natCast_mod_self, natCast_mod_self] at h2
  push_cast at h2
  exact h2

lemma R_coprime (P : ResidueParams) (hodd : Odd P.modulus) :
    Nat.Coprime P.R P.modulus := by
  have h := coprime_two_pow (kBits P.limbs) P.modulus hodd
  unfold ResidueParams.R
  calc Nat.gcd (2 ^ kBits P.limbs % P.modulus) P.modulus
      = Nat.gcd P.modulus (2 ^ kBits P.limbs) := (Nat.gcd_rec P.modulus _).symm
    _ = Nat.gcd (2 ^ kBits P.limbs) P.modulus := Nat.gcd_comm _ _
    _ = 1 := h

/-- Claim C1: for every input `x` (including `x ≥ modulus`) and on either
backend, `Residue::new(x).retrieve()` equals `x mod modulus`; in particular,
for every `x < modulus`, `Residue::new(x).retrieve() = x`. -/
theorem C1_new_retrieve_roundtrip (P : ResidueParams) (hodd : Odd P.modulus)
    (zkvm : Bool) (x : Nat) :
    Residue.retrieve zkvm P (Residue.new zkvm P x) = x % P.modulus ∧
    (x < P.modulus → Residue.retrieve zkvm P (Residue.new zkvm P x) = x) := by
  have hm : 0 < P.modulus := hodd.pos
  have hmain : Residue.retrieve zkvm P (Residue.new zkvm P x) = x % P.modulus := by
    by_cases h : zkvm = true ∧ P.limbs = BIGINT_WIDTH_WORDS
    · obtain ⟨hz, h8⟩ := h
      subst hz
      rw [new_accel_eq P h8 hm, retrieve_accel_eq P h8]
    · have hru := two_pow_mul_modInv (kBits P.limbs) P.modulus hodd
      push_cast at hru
      apply eq_of_lt_of_cast_eq (retrieve_soft_lt zkvm P hm h _) (Nat.mod_lt _ hm)
      rw [retrieve_soft_cast zkvm P h, new_soft_cast zkvm P hodd h, natCast_mod_self]
      linear_combination (x : ZMod P.modulus) * hru
  exact ⟨hmain, fun hx => by rw [hmain, Nat.mod_eq_of_lt hx]⟩

/-- Witness for C1: modulus 9, one limb, software path, input 25. -/
theorem C1_witness :
    Residue.retrieve false ⟨1, 9⟩ (Residue.new false ⟨1, 9⟩ 25) = 25 % 9 :=
  (C1_new_retrieve_roundtrip ⟨1, 9⟩ ⟨4, by norm_num⟩ false 25).1

/-- Claim C3: after the accelerator modmul system call the engine checks
that the result is strictly below the modulus and aborts when the check
fails: whatever the system call returns, `modmul_u256` never returns `ok`
with a value `≥ modulus`, and a non-canonical syscall result produces the
fatal canonical-range panic rather than an error value. -/
theorem C3_modmul_canonical_check (sys : Nat → Nat → Nat → Nat)
    (a b modulus : Nat) :
    (∀ v, modmul_u256 sys BIGINT_WIDTH_WORDS a b modulus = Except.ok v →
      v < modulus) ∧
    (modulus ≤ sys a b modulus →
      modmul_u256 sys BIGINT_WIDTH_WORDS a b modulus
        = Except.error PanicKind.canonicalAssert) := by
  constructor
  · intro v hv
    by_cases hlt : sys a b modulus < modulus
    · have heq : modmul_u256 sys BIGINT_WIDTH_WORDS a b modulus
          = Except.ok (sys a b modulus) := by
        simp [modmul_u256, hlt]
      rw [heq] at hv
      injection hv with h
      omega
    · have heq : modmul_u256 sys BIGINT_WIDTH_WORDS a b modulus
          = Except.error PanicKind.canonicalAssert := by
        simp [modmul_u256, hlt]
      rw [heq] at hv
      exact absurd hv (by simp)
  · intro hge
    simp [modmul_u256, Nat.not_lt.mpr hge]

/-- Witness for C3: a syscall stub returning 5 for modulus 4 aborts with
the canonical-range panic. -/
theorem C3_witness :
    modmul_u256 (fun _ _ _ => 5) BIGINT_WIDTH_WORDS 2 3 4
      = Except.error PanicKind.canonicalAssert :=
  (C3_modmul_canonical_check (fun _ _ _ => 5) 2 3 4).2 (by norm_num)

/-- Claim C10: the shim entry points enforce their width preconditions by
runtime assertion: for every `LIMBS ≠ 8`, `modmul_u256` panics with the
width assertion (independently of the system call), and for every
`LIMBS ≠ 4` so does `mul_wide_u128`; under the preconditions `LIMBS = 8`
(resp. `LIMBS = 4`) the width-assertion branch is never taken. -/
theorem C10_width_assertions (sys : Nat → Nat → Nat → Nat)
    (limbs a b modulus : Nat) :
    (limbs ≠ BIGINT_WIDTH_WORDS →
      modmul_u256 sys limbs a b modulus = Except.error PanicKind.widthAssert) ∧
    (limbs ≠ BIGINT_WIDTH_WORDS / 2 →
      mul_wide_u128 sys limbs a b = Except.error PanicKind.widthAssert) ∧
    (limbs = BIGINT_WIDTH_WORDS →
      modmul_u256 sys limbs a b modulus ≠ Except.error PanicKind.widthAssert) ∧
    (limbs = BIGINT_WIDTH_WORDS / 2 →
      mul_wide_u128 sys limbs a b ≠ Except.error PanicKind.widthAssert) := by
  refine ⟨fun h => ?_, fun h => ?_, fun h => ?_, fun h => ?_⟩
  · simp only [modmul_u256, if_neg h]
  · simp only [mul_wide_u128, if_neg h]
  · subst h
    have h1 : modmul_u256 sys BIGINT_WIDTH_WORDS a b modulus
        = if sys a b modulus < modulus then Except.ok (sys a b modulus)
          else Except.error PanicKind.canonicalAssert := by
      simp [modmul_u256]
    rw [h1]
    split <;> simp
  · subst h
    simp [mul_wide_u128]

/-- Witness for C10: seven limbs triggers the width assertion. -/
theorem C10_witness :
    modmul_u256 (fun _ _ _ => 0) 7 1 1 5 = Except.error PanicKind.widthAssert :=
  (C10_width_assertions (fun _ _ _ => 0) 7 1 1 5).1 (by decide)

/-- Claim C9: on 4-word (128-bit) operands the accelerated wide multiply
invokes the system call with an all-zero modulus and splits the 256-bit
result at word 4 into `(lo, hi)` with `lo + hi * 2^128 = a * b`, both
halves in the 4-word range; the call succeeds with no post-condition
range check. -/
theorem C9_mul_wide_u128 (a b : Nat) (ha : a < 2 ^ 128) (hb : b < 2 ^ 128) :
    mul_wide_u128 sys_bigint 4 a b
      = Except.ok (a * b % 2 ^ 128, a * b / 2 ^ 128) ∧
    a * b % 2 ^ 128 + a * b / 2 ^ 128 * 2 ^ 128 = a * b ∧
    a * b % 2 ^ 128 < 2 ^ 128 ∧ a * b / 2 ^ 128 < 2 ^ 128 := by
  have hab : a * b < 2 ^ 256 := by
    have h1 : a * b < 2 ^ 128 * 2 ^ 128 := Nat.mul_lt_mul_of_lt_of_lt ha hb
    exact h1.trans_le (by norm_num)
  have h0 : sys_bigint a b 0 = a * b := by
    unfold sys_bigint
    rw [if_pos rfl]
    exact Nat.mod_eq_of_lt hab
  have hk : kBits 4 = 128 := by norm_num [kBits, wordBits]
  refine ⟨?_, Nat.mod_add_div' (a * b) (2 ^ 128), Nat.mod_lt _ (by positivity), ?_⟩
  · simp only [mul_wide_u128, BIGINT_WIDTH_WORDS]
    norm_num [h0, hk]
  · rw [Nat.div_lt_iff_lt_mul (by positivity)]
    exact hab.trans_le (by norm_num)

/-- Witness for C9 at the operands 3 and 5. -/
theorem C9_witness :
    mul_wide_u128 sys_bigint 4 3 5
      = Except.ok (3 * 5 % 2 ^ 128, 3 * 5 / 2 ^ 128) ∧
    3 * 5 % 2 ^ 128 + 3 * 5 / 2 ^ 128 * 2 ^ 128 = 3 * 5 ∧
    3 * 5 % 2 ^ 128 < 2 ^ 128 ∧ 3 * 5 / 2 ^ 128 < 2 ^ 128 :=
  C9_mul_wide_u128 3 5 (by norm_num) (by norm_num)

/-- Claim C5 counterexample: on the accelerated 256-bit path
`into_montgomery_form` performs no reduction at all: with modulus 9 and
operand 9 it returns 9, not `9 mod 9 = 0`, refuting the claim that the
accelerated `into_montgomery_form` returns `a mod modulus` for every
input. -/
theorem C5_counterexample :
    into_montgomery_form true 8 9 (ResidueParams.R2 ⟨8, 9⟩) 9 = 9 ∧
    ¬ into_montgomery_form true 8 9 (ResidueParams.R2 ⟨8, 9⟩) 9 = 9 % 9 := by
  constructor
  · decide
  · decide

/-- Claim C5 amended: on the accelerated 256-bit path
`into_montgomery_form` skips the Montgomery conversion and is a pure
pass-through returning its operand unchanged, with no reduction; the
forcing into canonical range by a hardware multiply with the multiplicative
identity is performed by `Residue::new` instead, which returns
`a mod modulus` for every input `a` (including `a ≥ modulus`). -/
theorem C5_into_montgomery_form_passthrough (P : ResidueParams)
    (h8 : P.limbs = BIGINT_WIDTH_WORDS) (hodd : Odd P.modulus) (a : Nat) :
    into_montgomery_form true P.limbs a P.R2 P.modulus = a ∧
    Residue.new true P a = modmul_uint_256 a 1 P.modulus ∧
    Residue.new true P a = a % P.modulus := by
  have hm : 0 < P.modulus := hodd.pos
  refine ⟨?_, ?_, new_accel_eq P h8 hm a⟩
  · simp [into_montgomery_form, h8]
  · simp [Residue.new, h8]

/-- Witness for the amended C5: modulus 9, accelerated width, input 25. -/
theorem C5_witness :
    into_montgomery_form true 8 25 (ResidueParams.R2 ⟨8, 9⟩) 9 = 25 ∧
    Residue.new true ⟨8, 9⟩ 25 = modmul_uint_256 25 1 9 ∧
    Residue.new true ⟨8, 9⟩ 25 = 25 % 9 :=
  C5_into_montgomery_form_passthrough ⟨8, 9⟩ rfl ⟨4, by norm_num⟩ 25

end CryptoBigint

namespace CryptoBigint

/-- Claim C7: decoding rejects, with the explicit decode error, exactly the
encoded values not strictly below the modulus; every in-range encoding is
accepted and re-encodes to the identical wire value, on either backend. -/
theorem C7_deserialize_serialize (P : ResidueParams) (hodd : Odd P.modulus)
    (zkvm : Bool) (v : Nat) :
    (P.modulus ≤ v →
      Residue.deserialize zkvm P v
        = Except.error "montgomery form must be reduced") ∧
    (v < P.modulus → ∃ x, Residue.deserialize zkvm P v = Except.ok x ∧
      Residue.serialize zkvm P x = v) := by
  have hm : 0 < P.modulus := hodd.pos
  constructor
  · intro hge
    rw [Residue.deserialize, if_neg (Nat.not_lt.mpr hge)]
  · intro hlt
    by_cases h : zkvm = true ∧ P.limbs = BIGINT_WIDTH_WORDS
    · obtain ⟨hz, h8⟩ := h
      subst hz
      refine ⟨modmul_uint_256 v (inv_odd_mod P.R P.modulus).1 P.modulus, ?_, ?_⟩
      · rw [Residue.deserialize, if_pos hlt, if_pos ⟨rfl, h8⟩]
      · have hRinv := mul_modInv_cast P.R P.modulus hm (R_coprime P hodd)
        rw [serialize_accel_eq P h8 hm, modmul_uint_256_eq _ _ _ hm]
        simp only [inv_odd_mod]
        apply eq_of_lt_of_cast_eq (Nat.mod_lt _ hm) hlt
        rw [natCast_mod_self]
        push_cast [natCast_mod_self]
        linear_combination (v : ZMod P.modulus) * hRinv
    · refine ⟨v, ?_, serialize_soft_eq zkvm P h v⟩
      rw [Residue.deserialize, if_pos hlt, if_neg h]

/-- Witness for C7: modulus 9, software path, out-of-range encoding 11. -/
theorem C7_witness :
    Residue.deserialize false ⟨1, 9⟩ 11
      = Except.error "montgomery form must be reduced" :=
  (C7_deserialize_serialize ⟨1, 9⟩ ⟨4, by norm_num⟩ false 11).1 (by norm_num)

lemma div_by_2_congr (x m : Nat) (hodd : Odd m) :
    2 * CryptoBigint.div_by_2 x m % m = x % m := by
  have hm2 : m % 2 = 1 := Nat.odd_iff.mp hodd
  unfold CryptoBigint.div_by_2
  by_cases hx : x % 2 = 0
  · rw [if_pos hx, Nat.mul_div_cancel' (Nat.dvd_of_mod_eq_zero hx)]
  · rw [if_neg hx]
    have hdvd : 2 ∣ (x + m) := by omega
    rw [Nat.mul_div_cancel' hdvd, Nat.add_mod_right]

/-- Claim C8: `div_by_2` halves a residue modulo the odd modulus: it
returns `x / 2` on an even stored value and `(x + modulus) / 2` on an odd
one, the result `y` always satisfies `2y ≡ x (mod modulus)`, and
consequently `retrieve(new(a).div_by_2()) * 2 mod modulus = a mod modulus`
on either backend. -/
theorem C8_div_by_2_halves (P : ResidueParams) (hodd : Odd P.modulus)
    (zkvm : Bool) (x a : Nat) :
    (x % 2 = 0 → Residue.div_by_2 P x = x / 2) ∧
    (x % 2 = 1 → Residue.div_by_2 P x = (x + P.modulus) / 2) ∧
    2 * Residue.div_by_2 P x % P.modulus = x % P.modulus ∧
    Residue.retrieve zkvm P (Residue.div_by_2 P (Residue.new zkvm P a)) * 2
        % P.modulus = a % P.modulus := by
  have hm : 0 < P.modulus := hodd.pos
  refine ⟨fun hx => ?_, fun hx => ?_, div_by_2_congr x P.modulus hodd, ?_⟩
  · simp [Residue.div_by_2, CryptoBigint.div_by_2, hx]
  · simp [Residue.div_by_2, CryptoBigint.div_by_2, hx]
  · by_cases h : zkvm = true ∧ P.limbs = BIGINT_WIDTH_WORDS
    · obtain ⟨hz, h8⟩ := h
      subst hz
      rw [new_accel_eq P h8 hm, retrieve_accel_eq P h8]
      have hkey := div_by_2_congr (a % P.modulus) P.modulus hodd
      rw [Residue.div_by_2, Nat.mul_comm, hkey]
      exact Nat.mod_mod_of_dvd a dvd_rfl
    · have hru := two_pow_mul_modInv (kBits P.limbs) P.modulus hodd
      push_cast at hru
      have hns := new_soft_cast zkvm P hodd h a
      have hkey := div_by_2_congr (Residue.new zkvm P a) P.modulus hodd
      have hkey2 : (2 : ZMod P.modulus)
            * ((Residue.div_by_2 P (Residue.new zkvm P a) : Nat) : ZMod P.modulus)
          = ((Residue.new zkvm P a : Nat) : ZMod P.modulus) := by
        have hc := congrArg (fun t : Nat => ((t : Nat) : ZMod P.modulus)) hkey
        simp only [natCast_mod_self] at hc
        push_cast at hc
        rw [Residue.div_by_2]
        exact hc
      apply eq_of_lt_of_cast_eq (Nat.mod_lt _ hm) (Nat.mod_lt _ hm)
      rw [natCast_mod_self, natCast_mod_self]
      push_cast
      rw [retrieve_soft_cast zkvm P h]
      linear_combination
        ((modInv (2 ^ kBits P.limbs) P.modulus : Nat) : ZMod P.modulus) * hkey2
        + ((modInv (2 ^ kBits P.limbs) P.modulus : Nat) : ZMod P.modulus) * hns
        + (a : ZMod P.modulus) * hru

/-- Witness for C8: modulus 9, software path, x = 5, a = 7. -/
theorem C8_witness :
    2 * Residue.div_by_2 ⟨1, 9⟩ 5 % 9 = 5 % 9 ∧
    Residue.retrieve false ⟨1, 9⟩
        (Residue.div_by_2 ⟨1, 9⟩ (Residue.new false ⟨1, 9⟩ 7)) * 2 % 9
      = 7 % 9 :=
  ⟨(C8_div_by_2_halves ⟨1, 9⟩ ⟨4, by norm_num⟩ false 5 7).2.2.1,
   (C8_div_by_2_halves ⟨1, 9⟩ ⟨4, by norm_num⟩ false 5 7).2.2.2⟩

end CryptoBigint

namespace CryptoBigint

lemma coprime_mod (a m : Nat) (h : Nat.Coprime a m) : Nat.Coprime (a % m) m := by
  calc Nat.gcd (a % m) m = Nat.gcd m a := (Nat.gcd_rec m a).symm
    _ = Nat.gcd a m := Nat.gcd_comm _ _
    _ = 1 := h

lemma mul_montgomery_form_lt (zkvm : Bool) (limbs a b m : Nat) (hm : 0 < m) :
    mul_montgomery_form zkvm limbs a b m < m := by
  unfold mul_montgomery_form
  split
  · rw [modmul_uint_256_eq _ _ _ hm]
    exact Nat.mod_lt _ hm
  · unfold montgomery_reduction
    exact Nat.mod_lt _ hm

lemma inv_val_lt (zkvm : Bool) (P : ResidueParams) (hm : 0 < P.modulus) (x : Nat) :
    (Residue.inv zkvm P x).1 < P.modulus := by
  rw [Residue.inv]
  simp only [inv_montgomery_form]
  split
  · exact modInv_lt x P.modulus hm
  · exact mul_montgomery_form_lt zkvm P.limbs _ P.R3 P.modulus hm

lemma retrieve_lt_of_lt (zkvm : Bool) (P : ResidueParams) (hm : 0 < P.modulus)
    (x : Nat) (hx : x < P.modulus) : Residue.retrieve zkvm P x < P.modulus := by
  rw [Residue.retrieve]
  split
  · exact hx
  · unfold montgomery_reduction
    exact Nat.mod_lt _ hm

lemma reachable_lt (P : ResidueParams) (hodd : Odd P.modulus)
    (hm1 : 1 < P.modulus) (zkvm : Bool) (x : Nat)
    (hx : Reachable zkvm P x) : x < P.modulus := by
  have hm : 0 < P.modulus := hodd.pos
  induction hx with
  | zero => simpa [Residue.zero] using hm
  | one =>
    rw [Residue.one]
    split
    · exact hm1
    · rw [ResidueParams.R]
      exact Nat.mod_lt _ hm
  | ofNew a =>
    by_cases h : zkvm = true ∧ P.limbs = BIGINT_WIDTH_WORDS
    · obtain ⟨hz, h8⟩ := h
      subst hz
      rw [new_accel_eq P h8 hm]
      exact Nat.mod_lt _ hm
    · exact new_soft_lt zkvm P hm h a
  | ofDeserialize v y h =>
    rw [Residue.deserialize] at h
    by_cases hv : v < P.modulus
    · rw [if_pos hv] at h
      by_cases hb : zkvm = true ∧ P.limbs = BIGINT_WIDTH_WORDS
      · rw [if_pos hb] at h
        injection h with h'
        rw [← h', modmul_uint_256_eq _ _ _ hm]
        exact Nat.mod_lt _ hm
      · rw [if_neg hb] at h
        injection h with h'
        omega
    · rw [if_neg hv] at h
      exact absurd h (by simp)
  | ofAdd hx hy ihx ihy =>
    rw [Residue.add]
    exact Nat.mod_lt _ hm
  | ofSub hx hy ihx ihy =>
    rw [Residue.sub]
    exact Nat.mod_lt _ hm
  | ofNeg hx ih =>
    rw [Residue.neg]
    exact Nat.mod_lt _ hm
  | ofMul hx hy ihx ihy =>
    exact mul_montgomery_form_lt zkvm P.limbs _ _ P.modulus hm
  | ofDivBy2 hx ih =>
    rw [Residue.div_by_2]
    unfold CryptoBigint.div_by_2
    split <;> omega
  | ofInv hx ih =>
    exact inv_val_lt zkvm P hm _

/-- Claim C4: every reachable residue (built from `ZERO`, `ONE`, `new`,
successful decoding, or the arithmetic operations, on either backend)
stores a value strictly below the modulus, and its retrieved integer is
strictly below the modulus. -/
theorem C4_reachable_canonical (P : ResidueParams) (hodd : Odd P.modulus)
    (hm1 : 1 < P.modulus) (zkvm : Bool) (x : Nat)
    (hx : Reachable zkvm P x) :
    x < P.modulus ∧ Residue.retrieve zkvm P x < P.modulus := by
  have h1 := reachable_lt P hodd hm1 zkvm x hx
  exact ⟨h1, retrieve_lt_of_lt zkvm P hodd.pos x h1⟩

/-- Witness for C4: the residue `new 25` for modulus 9, software path. -/
theorem C4_witness :
    Residue.new false ⟨1, 9⟩ 25 < 9 ∧
    Residue.retrieve false ⟨1, 9⟩ (Residue.new false ⟨1, 9⟩ 25) < 9 :=
  C4_reachable_canonical ⟨1, 9⟩ ⟨4, by norm_num⟩ (by norm_num) false _
    (Reachable.ofNew 25)

/-- Claim C6: `inv_montgomery_form` returns a pair `(value, found)` whose
flag is true exactly when `gcd(x, modulus) = 1` (in particular false at
`x = 0`), no error being raised either way; when the flag holds, the value
is the inverse in the active internal representation, so
`retrieve(new(a) * inv(new(a))) = 1` for every `a` coprime to the odd
modulus, on either backend. -/
theorem C6_inverse (P : ResidueParams) (hodd : Odd P.modulus)
    (hm1 : 1 < P.modulus) (zkvm : Bool) (x a : Nat) :
    ((inv_montgomery_form zkvm P.limbs x P.modulus P.R3).2 = true ↔
      Nat.gcd x P.modulus = 1) ∧
    (inv_montgomery_form zkvm P.limbs 0 P.modulus P.R3).2 = false ∧
    (Nat.gcd a P.modulus = 1 →
      Residue.retrieve zkvm P
        (Residue.mul zkvm P (Residue.new zkvm P a)
          (Residue.inv zkvm P (Residue.new zkvm P a)).1) = 1) := by
  have hm : 0 < P.modulus := hodd.pos
  have hflag : ∀ y, (inv_montgomery_form zkvm P.limbs y P.modulus P.R3).2
      = decide (Nat.gcd y P.modulus = 1) := by
    intro y
    simp only [inv_montgomery_form, inv_odd_mod]
    split <;> rfl
  refine ⟨?_, ?_, ?_⟩
  · rw [hflag x]
    exact decide_eq_true_iff
  · rw [hflag 0]
    simp [Nat.gcd_zero_left, hm1.ne']
  · intro hca
    by_cases h : zkvm = true ∧ P.limbs = BIGINT_WIDTH_WORDS
    · obtain ⟨hz, h8⟩ := h
      subst hz
      rw [new_accel_eq P h8 hm]
      have hca' : Nat.Coprime (a % P.modulus) P.modulus := coprime_mod a P.modulus hca
      have hinv1 : (Residue.inv true P (a % P.modulus)).1
          = modInv (a % P.modulus) P.modulus := by
        simp [Residue.inv, inv_montgomery_form, inv_odd_mod, h8]
      rw [retrieve_accel_eq P h8, hinv1]
      rw [show Residue.mul true P (a % P.modulus) (modInv (a % P.modulus) P.modulus)
          = a % P.modulus * modInv (a % P.modulus) P.modulus % P.modulus from by
        simp [Residue.mul, mul_montgomery_form, h8, modmul_uint_256_eq _ _ _ hm]]
      rw [modInv_spec _ _ hm hca']
      exact Nat.mod_eq_of_lt hm1
    · have hru := two_pow_mul_modInv (kBits P.limbs) P.modulus hodd
      push_cast at hru
      have hslt : Residue.new zkvm P a < P.modulus := new_soft_lt zkvm P hm h a
      have hscast := new_soft_cast zkvm P hodd h a
      have hseq : Residue.new zkvm P a = a * 2 ^ kBits P.limbs % P.modulus := by
        apply eq_of_lt_of_cast_eq hslt (Nat.mod_lt _ hm)
        rw [natCast_mod_self, hscast]
        push_cast
        ring
      have hcs : Nat.Coprime (Residue.new zkvm P a) P.modulus := by
        rw [hseq]
        exact coprime_mod _ _
          (Nat.Coprime.mul hca (coprime_two_pow (kBits P.limbs) P.modulus hodd))
      have hsinvc := mul_modInv_cast (Residue.new zkvm P a) P.modulus hm hcs
      have hinv1 : (Residue.inv zkvm P (Residue.new zkvm P a)).1
          = modInv (Residue.new zkvm P a) P.modulus * P.R3
              * modInv (2 ^ kBits P.limbs) P.modulus % P.modulus := by
        simp [Residue.inv, inv_montgomery_form, inv_odd_mod, mul_montgomery_form, h,
          montgomery_reduction_mul_wide]
      have hmulv : Residue.mul zkvm P (Residue.new zkvm P a)
            (Residue.inv zkvm P (Residue.new zkvm P a)).1
          = Residue.new zkvm P a * (Residue.inv zkvm P (Residue.new zkvm P a)).1
              * modInv (2 ^ kBits P.limbs) P.modulus % P.modulus := by
        simp [Residue.mul, mul_montgomery_form, h, montgomery_reduction_mul_wide]
      apply eq_of_lt_of_cast_eq (retrieve_soft_lt zkvm P hm h _) hm1
      rw [retrieve_soft_cast zkvm P h, hmulv, hinv1, natCast_mod_self]
      push_cast [natCast_mod_self, ResidueParams.R3, ResidueParams.R]
      linear_combination
        ((2 : ZMod P.modulus) ^ kBits P.limbs) ^ 3
            * ((modInv (2 ^ kBits P.limbs) P.modulus : Nat) : ZMod P.modulus) ^ 3
            * hsinvc
        + (((2 : ZMod P.modulus) ^ kBits P.limbs
              * ((modInv (2 ^ kBits P.limbs) P.modulus : Nat) : ZMod P.modulus)) ^ 2
            + (2 : ZMod P.modulus) ^ kBits P.limbs
              * ((modInv (2 ^ kBits P.limbs) P.modulus : Nat) : ZMod P.modulus)
            + 1) * hru

/-- Witness for C6: modulus 9, software path, a = 2 (coprime to 9). -/
theorem C6_witness :
    Residue.retrieve false ⟨1, 9⟩
      (Residue.mul false ⟨1, 9⟩ (Residue.new false ⟨1, 9⟩ 2)
        (Residue.inv false ⟨1, 9⟩ (Residue.new false ⟨1, 9⟩ 2)).1) = 1 :=
  (C6_inverse ⟨1, 9⟩ ⟨4, by norm_num⟩ (by norm_num) false 2 2).2.2 (by norm_num)

end CryptoBigint

namespace CryptoBigint

lemma gcd_mod_left (a m : Nat) : Nat.gcd (a % m) m = Nat.gcd a m := by
  calc Nat.gcd (a % m) m = Nat.gcd m a := (Nat.gcd_rec m a).symm
    _ = Nat.gcd a m := Nat.gcd_comm _ _

lemma cast_modulus_sub (m y : Nat) (hy : y ≤ m) :
    ((m - y : Nat) : ZMod m) = - (y : ZMod m) := by
  have h := congrArg (fun t : Nat => ((t : Nat) : ZMod m)) (Nat.sub_add_cancel hy)
  push_cast [ZMod.natCast_self] at h
  linear_combination h

lemma cancel_two (m : Nat) (hodd : Odd m) (A B : ZMod m)
    (h : 2 * A = 2 * B) : A = B := by
  have h2 := mul_modInv_cast 2 m hodd.pos (Nat.coprime_two_left.mpr hodd)
  push_cast at h2
  linear_combination ((modInv 2 m : Nat) : ZMod m) * h - (A - B) * h2

lemma div_by_2_lt (x m : Nat) (hx : x < m) : CryptoBigint.div_by_2 x m < m := by
  unfold CryptoBigint.div_by_2
  split <;> omega

lemma mul_accel_eq (P : ResidueParams) (h8 : P.limbs = BIGINT_WIDTH_WORDS)
    (hm : 0 < P.modulus) (x y : Nat) :
    Residue.mul true P x y = x * y % P.modulus := by
  simp [Residue.mul, mul_montgomery_form, h8, modmul_uint_256_eq _ _ _ hm]

lemma mul_soft_eq (zkvm : Bool) (P : ResidueParams)
    (h : ¬(zkvm = true ∧ P.limbs = BIGINT_WIDTH_WORDS)) (x y : Nat) :
    Residue.mul zkvm P x y
      = x * y * modInv (2 ^ kBits P.limbs) P.modulus % P.modulus := by
  simp [Residue.mul, mul_montgomery_form, h, montgomery_reduction_mul_wide]

lemma inv_flag_eq (zkvm : Bool) (P : ResidueParams) (x : Nat) :
    (Residue.inv zkvm P x).2 = decide (Nat.gcd x P.modulus = 1) := by
  simp only [Residue.inv, inv_montgomery_form, inv_odd_mod]
  split <;> rfl

lemma backendsAgree_of_sim (P : ResidueParams)
    (h8 : P.limbs = BIGINT_WIDTH_WORDS) (hodd : Odd P.modulus) (xa xs : Nat)
    (hxa : xa < P.modulus) (hxs : xs < P.modulus)
    (hsim : ((xs : Nat) : ZMod P.modulus)
      = (xa : ZMod P.modulus) * (2 : ZMod P.modulus) ^ kBits P.limbs) :
    backendsAgree P xa xs := by
  have hm : 0 < P.modulus := hodd.pos
  have hnsoft : ¬(false = true ∧ P.limbs = BIGINT_WIDTH_WORDS) := by simp
  have hru := two_pow_mul_modInv (kBits P.limbs) P.modulus hodd
  push_cast at hru
  constructor
  · rw [serialize_accel_eq P h8 hm, serialize_soft_eq false P hnsoft]
    apply eq_of_lt_of_cast_eq (Nat.mod_lt _ hm) hxs
    rw [natCast_mod_self, hsim]
    push_cast [ResidueParams.R, natCast_mod_self]
    ring
  · rw [retrieve_accel_eq P h8]
    symm
    apply eq_of_lt_of_cast_eq (retrieve_soft_lt false P hm hnsoft xs) hxa
    rw [retrieve_soft_cast false P hnsoft, hsim]
    linear_combination (xa : ZMod P.modulus) * hru

end CryptoBigint

namespace CryptoBigint

/-- Claim C2: for the accelerated 8-word width, every modelled operation is
observably bit-identical across the two backends — the serialized wire
value and the retrieved integer of each result agree — and the wire format
is always the Montgomery-form representative: the accelerated serialize
path multiplies the stored standard-form value by `R` before emitting, so
serializing an accelerated residue yields exactly the software backend's
stored Montgomery form. -/
theorem C2_cross_backend_equivalence (P : ResidueParams)
    (h8 : P.limbs = BIGINT_WIDTH_WORDS) (hodd : Odd P.modulus)
    (hm1 : 1 < P.modulus) (a b v : Nat) :
    backendsAgree P (Residue.new true P a) (Residue.new false P a) ∧
    backendsAgree P Residue.zero Residue.zero ∧
    backendsAgree P (Residue.one true P) (Residue.one false P) ∧
    Residue.serialize true P (Residue.new true P a) = Residue.new false P a ∧
    backendsAgree P
      (Residue.mul true P (Residue.new true P a) (Residue.new true P b))
      (Residue.mul false P (Residue.new false P a) (Residue.new false P b)) ∧
    backendsAgree P
      (Residue.add P (Residue.new true P a) (Residue.new true P b))
      (Residue.add P (Residue.new false P a) (Residue.new false P b)) ∧
    backendsAgree P
      (Residue.sub P (Residue.new true P a) (Residue.new true P b))
      (Residue.sub P (Residue.new false P a) (Residue.new false P b)) ∧
    backendsAgree P (Residue.neg P (Residue.new true P a))
      (Residue.neg P (Residue.new false P a)) ∧
    backendsAgree P (Residue.div_by_2 P (Residue.new true P a))
      (Residue.div_by_2 P (Residue.new false P a)) ∧
    (Residue.inv true P (Residue.new true P a)).2
      = (Residue.inv false P (Residue.new false P a)).2 ∧
    (Nat.gcd a P.modulus = 1 →
      backendsAgree P (Residue.inv true P (Residue.new true P a)).1
        (Residue.inv false P (Residue.new false P a)).1) ∧
    (v < P.modulus → ∃ xa xs,
      Residue.deserialize true P v = Except.ok xa ∧
      Residue.deserialize false P v = Except.ok xs ∧
      backendsAgree P xa xs) ∧
    (P.modulus ≤ v →
      Residue.deserialize true P v
          = Except.error "montgomery form must be reduced" ∧
      Residue.deserialize false P v
          = Except.error "montgomery form must be reduced") := by
  have hm : 0 < P.modulus := hodd.pos
  have hnsoft : ¬(false = true ∧ P.limbs = BIGINT_WIDTH_WORDS) := by simp
  have hru := two_pow_mul_modInv (kBits P.limbs) P.modulus hodd
  push_cast at hru
  have hAa : Residue.new true P a = a % P.modulus := new_accel_eq P h8 hm a
  have hAb : Residue.new true P b = b % P.modulus := new_accel_eq P h8 hm b
  have hAalt : Residue.new true P a < P.modulus := by
    rw [hAa]; exact Nat.mod_lt _ hm
  have hAblt : Residue.new true P b < P.modulus := by
    rw [hAb]; exact Nat.mod_lt _ hm
  have hSalt : Residue.new false P a < P.modulus := new_soft_lt false P hm hnsoft a
  have hSblt : Residue.new false P b < P.modulus := new_soft_lt false P hm hnsoft b
  have hsima : ((Residue.new false P a : Nat) : ZMod P.modulus)
      = ((Residue.new true P a : Nat) : ZMod P.modulus)
        * (2 : ZMod P.modulus) ^ kBits P.limbs := by
    rw [new_soft_cast false P hodd hnsoft a, hAa, natCast_mod_self]
  have hsimb : ((Residue.new false P b : Nat) : ZMod P.modulus)
      = ((Residue.new true P b : Nat) : ZMod P.modulus)
        * (2 : ZMod P.modulus) ^ kBits P.limbs := by
    rw [new_soft_cast false P hodd hnsoft b, hAb, natCast_mod_self]
  have hseqs : Residue.new false P a = a * 2 ^ kBits P.limbs % P.modulus := by
    apply eq_of_lt_of_cast_eq hSalt (Nat.mod_lt _ hm)
    rw [natCast_mod_self, new_soft_cast false P hodd hnsoft a]
    push_cast
    ring
  have hag_new := backendsAgree_of_sim P h8 hodd _ _ hAalt hSalt hsima
  refine ⟨hag_new, ?_, ?_, ?_, ?_, ?_, ?_, ?_, ?_, ?_, ?_, ?_, ?_⟩
  · refine backendsAgree_of_sim P h8 hodd _ _ ?_ ?_ ?_
    · simpa [Residue.zero] using hm
    · simpa [Residue.zero] using hm
    · simp [Residue.zero]
  · have h1a : Residue.one true P = 1 := by rw [Residue.one, if_pos ⟨rfl, h8⟩]
    have h1s : Residue.one false P = P.R := by rw [Residue.one, if_neg hnsoft]
    refine backendsAgree_of_sim P h8 hodd _ _ ?_ ?_ ?_
    · rw [h1a]; exact hm1
    · rw [h1s, ResidueParams.R]; exact Nat.mod_lt _ hm
    · rw [h1a, h1s]
      push_cast [ResidueParams.R, natCast_mod_self]
      ring
  · exact hag_new.1.trans (serialize_soft_eq false P hnsoft _)
  · refine backendsAgree_of_sim P h8 hodd _ _ ?_ ?_ ?_
    · rw [mul_accel_eq P h8 hm]; exact Nat.mod_lt _ hm
    · exact mul_montgomery_form_lt false P.limbs _ _ P.modulus hm
    · rw [mul_soft_eq false P hnsoft, mul_accel_eq P h8 hm]
      simp only [natCast_mod_self]
      push_cast
      rw [hsima, hsimb]
      linear_combination (((Residue.new true P a : Nat) : ZMod P.modulus)
        * ((Residue.new true P b : Nat) : ZMod P.modulus)
        * (2 : ZMod P.modulus) ^ kBits P.limbs) * hru
  · refine backendsAgree_of_sim P h8 hodd _ _ ?_ ?_ ?_
    · rw [Residue.add]; exact Nat.mod_lt _ hm
    · rw [Residue.add]; exact Nat.mod_lt _ hm
    · rw [Residue.add, Residue.add]
      simp only [natCast_mod_self]
      push_cast
      rw [hsima, hsimb]
      ring
  · refine backendsAgree_of_sim P h8 hodd _ _ ?_ ?_ ?_
    · rw [Residue.sub]; exact Nat.mod_lt _ hm
    · rw [Residue.sub]; exact Nat.mod_lt _ hm
    · rw [Residue.sub, Residue.sub]
      simp only [natCast_mod_self]
      push_cast
      rw [cast_modulus_sub P.modulus (Residue.new true P b) (le_of_lt hAblt),
          cast_modulus_sub P.modulus (Residue.new false P b) (le_of_lt hSblt),
          hsima, hsimb]
      ring
  · refine backendsAgree_of_sim P h8 hodd _ _ ?_ ?_ ?_
    · rw [Residue.neg]; exact Nat.mod_lt _ hm
    · rw [Residue.neg]; exact Nat.mod_lt _ hm
    · rw [Residue.neg, Residue.neg]
      simp only [natCast_mod_self]
      rw [cast_modulus_sub P.modulus (Residue.new true P a) (le_of_lt hAalt),
          cast_modulus_sub P.modulus (Residue.new false P a) (le_of_lt hSalt),
          hsima]
      ring
  · have h2a := div_by_2_congr (Residue.new true P a) P.modulus hodd
    have h2s := div_by_2_congr (Residue.new false P a) P.modulus hodd
    have h2ac : (2 : ZMod P.modulus)
          * ((CryptoBigint.div_by_2 (Residue.new true P a) P.modulus : Nat)
              : ZMod P.modulus)
        = ((Residue.new true P a : Nat) : ZMod P.modulus) := by
      have hc := congrArg (fun t : Nat => ((t : Nat) : ZMod P.modulus)) h2a
      simp only [natCast_mod_self] at hc
      push_cast at hc
      exact hc
    have h2sc : (2 : ZMod P.modulus)
          * ((CryptoBigint.div_by_2 (Residue.new false P a) P.modulus : Nat)
              : ZMod P.modulus)
        = ((Residue.new false P a : Nat) : ZMod P.modulus) := by
      have hc := congrArg (fun t : Nat => ((t : Nat) : ZMod P.modulus)) h2s
      simp only [natCast_mod_self] at hc
      push_cast at hc
      exact hc
    refine backendsAgree_of_sim P h8 hodd _ _ ?_ ?_ ?_
    · rw [Residue.div_by_2]; exact div_by_2_lt _ _ hAalt
    · rw [Residue.div_by_2]; exact div_by_2_lt _ _ hSalt
    · rw [Residue.div_by_2, Residue.div_by_2]
      apply cancel_two P.modulus hodd
      linear_combination h2sc + hsima
        - (2 : ZMod P.modulus) ^ kBits P.limbs * h2ac
  · rw [inv_flag_eq true P _, inv_flag_eq false P _, decide_eq_decide]
    have hxa : Nat.gcd (Residue.new true P a) P.modulus = Nat.gcd a P.modulus := by
      rw [hAa, gcd_mod_left]
    rw [hxa, hseqs, gcd_mod_left]
    constructor
    · intro h
      exact Nat.coprime_mul_iff_left.mpr ⟨h, coprime_two_pow _ _ hodd⟩
    · intro h
      exact (Nat.coprime_mul_iff_left.mp h).1
  · intro hca
    have hcoA : Nat.Coprime (Residue.new true P a) P.modulus := by
      rw [hAa]
      exact coprime_mod a P.modulus hca
    have hcoS : Nat.Coprime (Residue.new false P a) P.modulus := by
      rw [hseqs]
      exact coprime_mod _ _
        (Nat.coprime_mul_iff_left.mpr ⟨hca, coprime_two_pow _ _ hodd⟩)
    have hH1 := mul_modInv_cast (Residue.new false P a) P.modulus hm hcoS
    have hH2 := mul_modInv_cast (Residue.new true P a) P.modulus hm hcoA
    have hinvT : (Residue.inv true P (Residue.new true P a)).1
        = modInv (Residue.new true P a) P.modulus := by
      simp [Residue.inv, inv_montgomery_form, inv_odd_mod, h8]
    have hinvS : (Residue.inv false P (Residue.new false P a)).1
        = modInv (Residue.new false P a) P.modulus * P.R3
            * modInv (2 ^ kBits P.limbs) P.modulus % P.modulus := by
      simp [Residue.inv, inv_montgomery_form, inv_odd_mod, mul_montgomery_form,
        montgomery_reduction_mul_wide]
    refine backendsAgree_of_sim P h8 hodd _ _ ?_ ?_ ?_
    · rw [hinvT]; exact modInv_lt _ _ hm
    · rw [hinvS]; exact Nat.mod_lt _ hm
    · rw [hinvT, hinvS]
      simp only [natCast_mod_self]
      push_cast [ResidueParams.R3, ResidueParams.R, natCast_mod_self]
      linear_combination
        (((modInv (Residue.new true P a) P.modulus : Nat) : ZMod P.modulus)
            * (2 : ZMod P.modulus) ^ kBits P.limbs) * hH1
        - (((modInv (Residue.new false P a) P.modulus : Nat) : ZMod P.modulus)
            * ((2 : ZMod P.modulus) ^ kBits P.limbs) ^ 2) * hH2
        - (((modInv (Residue.new true P a) P.modulus : Nat) : ZMod P.modulus)
            * (2 : ZMod P.modulus) ^ kBits P.limbs
            * ((modInv (Residue.new false P a) P.modulus : Nat) : ZMod P.modulus))
          * hsima
        + (((modInv (Residue.new false P a) P.modulus : Nat) : ZMod P.modulus)
            * ((2 : ZMod P.modulus) ^ kBits P.limbs) ^ 2) * hru
  · intro hv
    refine ⟨modmul_uint_256 v (inv_odd_mod P.R P.modulus).1 P.modulus, v, ?_, ?_, ?_⟩
    · rw [Residue.deserialize, if_pos hv, if_pos ⟨rfl, h8⟩]
    · rw [Residue.deserialize, if_pos hv, if_neg hnsoft]
    · have hRcast : ((P.R : Nat) : ZMod P.modulus)
          = (2 : ZMod P.modulus) ^ kBits P.limbs := by
        rw [ResidueParams.R, natCast_mod_self]
        push_cast
        ring
      have hRc := mul_modInv_cast P.R P.modulus hm (R_coprime P hodd)
      rw [hRcast] at hRc
      refine backendsAgree_of_sim P h8 hodd _ _ ?_ hv ?_
      · simp only [inv_odd_mod]
        rw [modmul_uint_256_eq _ _ _ hm]
        exact Nat.mod_lt _ hm
      · simp only [inv_odd_mod]
        rw [modmul_uint_256_eq _ _ _ hm]
        simp only [natCast_mod_self]
        push_cast
        linear_combination (-(v : ZMod P.modulus)) * hRc
  · intro hge
    constructor <;> rw [Residue.deserialize, if_neg (Nat.not_lt.mpr hge)]

/-- Witness for C2: modulus 9 at the accelerated width, operands 2 and 3,
wire value 4. -/
theorem C2_witness :
    backendsAgree ⟨8, 9⟩ (Residue.new true ⟨8, 9⟩ 2) (Residue.new false ⟨8, 9⟩ 2) :=
  (C2_cross_backend_equivalence ⟨8, 9⟩ rfl ⟨4, by norm_num⟩ (by norm_num) 2 3 4).1

end CryptoBigint
